import Mathlib

/-!
Verification development for a DOCX transition-triplet extractor
(`app.py`).  The pipeline under study: paragraph segmentation at a
literal marker line, article parsing, tolerant pattern construction
(placeholder `[XXX]` and French elision of a trailing " que"),
triplet extraction via non-overlapping left-to-right matching, a
streaming per-transition usage cap, and report generation.
Strings are modelled as Lean `String`s (sequences of code points,
matching Python's code-point indexing); the regex built by the
source is modelled as a small token list with explicit backtracking
semantics.
-/

/-- Apostrophe character (code point 39). -/
def apos : Char := Char.ofNat 39

/-- Characters removed by Python's `str.strip()` (ASCII whitespace). -/
def isStripChar (c : Char) : Bool :=
  c = ' ' || c = '\t' || c = '\n' || c = '\r' || c = Char.ofNat 11 || c = Char.ofNat 12

/-- `l` with leading and trailing whitespace characters removed. -/
def stripChars (l : List Char) : List Char :=
  ((l.dropWhile isStripChar).reverse.dropWhile isStripChar).reverse

/-- Model of Python `str.strip()`. -/
def pyStrip (s : String) : String := String.mk (stripChars s.data)

/-- Does `hay` start with `needle`? -/
def listStartsWith : List Char → List Char → Bool
  | [], _ => true
  | _ :: _, [] => false
  | a :: as, b :: bs => a = b && listStartsWith as bs

/-- Does `needle` occur as a contiguous substring of the second list?
Model of Python's `needle in hay`. -/
def listHasSub (needle : List Char) : List Char → Bool
  | [] => listStartsWith needle []
  | c :: t => listStartsWith needle (c :: t) || listHasSub needle t

/-- The literal marker separating articles (`app.py`, line 49). -/
def markerText : String := "À savoir également dans votre département"

/-- Case-sensitive substring test for the marker (`app.py`, line 49). -/
def isMarkerLine (s : String) : Bool := listHasSub markerText.data s.data

/-- Accumulator loop of `extract_articles_from_docx` (`app.py`, lines 46-58):
marker lines flush the non-empty accumulator and are dropped, non-empty
lines are appended, and a final non-empty accumulator is flushed. -/
def segmentAux : List String → List String → List (List String)
  | [], cur => if cur = [] then [] else [cur]
  | p :: ps, cur =>
      let text := pyStrip p
      if isMarkerLine text then
        (if cur = [] then segmentAux ps [] else cur :: segmentAux ps [])
      else if text = "" then segmentAux ps cur
      else segmentAux ps (cur ++ [text])

/-- All raw blocks produced from the paragraph stream (`app.py`, lines 43-58). -/
def extract_blocks (paras : List String) : List (List String) :=
  segmentAux paras []

/-- One article record (`app.py`, lines 80-83). -/
structure Article where
  narrative_paragraph : String
  transitions_list : List String
deriving DecidableEq

/-- Conversion of a single raw block into an article (`app.py`, lines 73-83):
blocks with fewer than two lines yield nothing; otherwise the head is the
narrative and the stripped non-empty remaining lines are the transitions. -/
def articleOfBlock : List String → Option Article
  | narr :: t1 :: rest =>
      some ⟨narr, ((t1 :: rest).map pyStrip).filter (fun s => decide (s ≠ ""))⟩
  | _ => none

/-- Parsing raw blocks into articles (`app.py`, lines 60-84): fewer than
two blocks yield no articles, the first block is skipped, and every other
block is converted if it has at least two lines. -/
def parseArticles (blocks : List (List String)) : List Article :=
  if blocks.length < 2 then []
  else (blocks.drop 1).filterMap articleOfBlock

/-- The whole document front-end: segmentation then parsing, with the
document reader abstracted to its ordered paragraph texts. -/
def extract_articles_from_docx (paras : List String) : List Article :=
  parseArticles (extract_blocks paras)

/-- Tokens of the tolerant pattern compiled in `extract_all_raw_triplets`
(`app.py`, lines 109-126): a case-insensitive literal character, the
greedy non-comma gap produced from `[XXX]`, and the trailing
alternation produced from a final " que". -/
inductive Tok where
  | lit : Char → Tok
  | anyNonComma : Tok
  | queAlt : Tok
deriving DecidableEq

/-- Case-insensitive character comparison (re.IGNORECASE). -/
def charMatches (p c : Char) : Bool := p.toLower = c.toLower

/-- Whitespace as matched by the regex class `\s`. -/
def isSpaceChar (c : Char) : Bool :=
  c = ' ' || c = '\t' || c = '\n' || c = '\r' || c = Char.ofNat 11 || c = Char.ofNat 12

/-- Word characters as matched by the regex class `\w`. -/
def isWordChar (c : Char) : Bool := c.isAlphanum || c = '_'

/-- Length of the maximal prefix of non-comma characters (the most the
greedy `[^,]*` can consume). -/
def nonCommaRun : List Char → Nat
  | [] => 0
  | c :: s => if c = ',' then 0 else nonCommaRun s + 1

/-- Length of the maximal prefix of word characters (the most the greedy
`\w*` can consume). -/
def wordRun : List Char → Nat
  | [] => 0
  | c :: s => if isWordChar c then wordRun s + 1 else 0

/-- Backtracking matcher for a token list against a character list,
returning the unconsumed suffix of the first successful parse in the
backtracking order of the compiled regex: greedy stars try the longest
consumption first, and the elision alternation tries the literal
" que" branch before the " qu'" branch.  `fuel` bounds the recursion;
one unit is spent per token. -/
def matchFuel : Nat → List Tok → List Char → Option (List Char)
  | 0, _, _ => none
  | _ + 1, [], s => some s
  | fuel + 1, Tok.lit p :: ts, s =>
      match s with
      | [] => none
      | c :: s' => if charMatches p c then matchFuel fuel ts s' else none
  | fuel + 1, Tok.anyNonComma :: ts, s =>
      ((List.range (nonCommaRun s + 1)).reverse).findSome?
        (fun j => matchFuel fuel ts (s.drop j))
  | fuel + 1, Tok.queAlt :: ts, s =>
      let alt2 : Option (List Char) :=
        match s with
        | c1 :: c2 :: c3 :: c4 :: rest =>
            if isSpaceChar c1 && charMatches 'q' c2 && charMatches 'u' c3
                && c4 = apos then
              ((List.range (wordRun rest + 1)).reverse).findSome?
                (fun j => matchFuel fuel ts (rest.drop j))
            else none
        | _ => none
      match s with
      | c1 :: c2 :: c3 :: c4 :: rest =>
          if isSpaceChar c1 && charMatches 'q' c2 && charMatches 'u' c3
              && charMatches 'e' c4 then
            match matchFuel fuel ts rest with
            | some r => some r
            | none => alt2
          else alt2
      | _ => alt2

/-- Attempt a match of the whole token list; `toks.length + 1` fuel always
suffices since each token consumes exactly one unit. -/
def matchSuffix (toks : List Tok) (s : List Char) : Option (List Char) :=
  matchFuel (toks.length + 1) toks s

/-- Try to match at position `i` in `s`; on success return the end index
of the span. -/
def matchAt (toks : List Tok) (s : List Char) (i : Nat) : Option Nat :=
  match matchSuffix toks (s.drop i) with
  | none => none
  | some rem => some (s.length - rem.length)

/-- Tokenisation of an escaped phrase with the `[XXX]` replacement
(`app.py`, lines 109-116): each literal occurrence of `[XXX]` becomes the
greedy non-comma gap, every other character a literal token. -/
def buildToksAux : List Char → List Tok
  | '[' :: 'X' :: 'X' :: 'X' :: ']' :: rest => Tok.anyNonComma :: buildToksAux rest
  | c :: rest => Tok.lit c :: buildToksAux rest
  | [] => []

/-- Does the token list end with the four literals of " que"?  Mirrors the
`pattern_str.endswith` test of `app.py`, line 125. -/
def endsWithQue (ts : List Tok) : Bool :=
  match ts.reverse with
  | Tok.lit 'e' :: Tok.lit 'u' :: Tok.lit 'q' :: Tok.lit ' ' :: _ => true
  | _ => false

/-- Full pattern construction for one transition phrase
(`app.py`, lines 107-130). -/
def buildToks (p : String) : List Tok :=
  let ts := buildToksAux p.data
  if endsWithQue ts then ts.take (ts.length - 4) ++ [Tok.queAlt] else ts

/-- Non-overlapping left-to-right scan of `re.finditer`: search from
position `p`; a successful span continues the scan at its end (or one
past it when the span is empty).  `fuel` bounds the loop; the position
strictly increases, so `s.length + 2` always suffices. -/
def scanFuel (toks : List Tok) (s : List Char) : Nat → Nat → List (Nat × Nat)
  | _, 0 => []
  | p, fuel + 1 =>
      if p ≤ s.length then
        match matchAt toks s p with
        | some e =>
            if p < e then (p, e) :: scanFuel toks s e fuel
            else (p, e) :: scanFuel toks s (p + 1) fuel
        | none => scanFuel toks s (p + 1) fuel
      else []

/-- All non-overlapping match spans of the pattern in `s`. -/
def findMatches (toks : List Tok) (s : List Char) : List (Nat × Nat) :=
  scanFuel toks s 0 (s.length + 2)

/-- One extracted training example (`app.py`, lines 147-153). -/
structure Triplet where
  paragraph_a : String
  transition : String
  paragraph_b : String
deriving DecidableEq

/-- All triplets produced by one phrase against one narrative
(`app.py`, lines 134-153): one triplet per span, carrying the stripped
text before and after the span and the canonical phrase itself. -/
def tripletsFor (narrative : String) (t : String) : List Triplet :=
  (findMatches (buildToks t) narrative.data).map (fun se =>
    { paragraph_a := String.mk (stripChars (narrative.data.take se.1))
      transition := t
      paragraph_b := String.mk (stripChars (narrative.data.drop se.2)) })

/-- `extract_all_raw_triplets` (`app.py`, lines 87-154): empty phrases are
skipped, all others contribute their matches in list order. -/
def extract_all_raw_triplets (narrative : String) (transitions : List String) :
    List Triplet :=
  transitions.flatMap (fun t => if t = "" then [] else tripletsFor narrative t)

/-- Append a rejected triplet under its key, preserving the insertion
order of keys (Python `defaultdict(list)` update, `app.py`, line 195). -/
def dupAdd : List (String × List Triplet) → String → Triplet →
    List (String × List Triplet)
  | [], t, x => [(t, [x])]
  | (k, v) :: rest, t, x =>
      if k = t then (k, v ++ [x]) :: rest else (k, v) :: dupAdd rest t x

/-- Value stored under a key in the duplicates mapping (empty when the
key is absent, matching `defaultdict(list)`). -/
def dupLookup : List (String × List Triplet) → String → List Triplet
  | [], _ => []
  | (k, v) :: rest, t => if k = t then v else dupLookup rest t

/-- State threaded through the capping loop of `generate_output_files`
(`app.py`, lines 186-195): accepted triplets in order, the per-transition
usage counter (`defaultdict(int)`), and the ordered duplicates mapping. -/
structure CapState where
  final : List Triplet
  tracker : String → Nat
  dups : List (String × List Triplet)

/-- Freshly initialised capping state. -/
def initState : CapState := ⟨[], fun _ => 0, []⟩

/-- One iteration of the capping loop (`app.py`, lines 189-195). -/
def capStep (cap : Nat) (st : CapState) (x : Triplet) : CapState :=
  if st.tracker x.transition < cap then
    { final := st.final ++ [x]
      tracker := fun k =>
        if k = x.transition then st.tracker x.transition + 1 else st.tracker k
      dups := st.dups }
  else
    { final := st.final, tracker := st.tracker
      dups := dupAdd st.dups x.transition x }

/-- The whole capping pass over the raw triplets (`app.py`, lines 186-195). -/
def runCap (cap : Nat) (raw : List Triplet) : CapState :=
  raw.foldl (capStep cap) initState

/-- Raw triplets of `raw` whose transition is exactly `T`. -/
def withT (T : String) (l : List Triplet) : List Triplet :=
  l.filter (fun x => decide (x.transition = T))

/-- Number of occurrences of transition `T` in `l`. -/
def countT (l : List Triplet) (T : String) : Nat := (withT T l).length

/-- One line of the cap-exceeded report (`app.py`, line 209). -/
def reportLine (T : String) (total excess : Nat) : String :=
  "Transition: '" ++ T ++ "' used " ++ toString total ++
    " times (exceeded by " ++ toString excess ++ ")"

/-- The cap-exceeded report (`app.py`, lines 204-209): one line per
duplicates entry with a non-empty rejected list, stating the accepted
count plus the rejected count and the rejected count. -/
def rejectedReport (cap : Nat) (raw : List Triplet) : List String :=
  ((runCap cap raw).dups.filter (fun kv => decide (kv.2 ≠ []))).map
    (fun kv =>
      reportLine kv.1 ((runCap cap raw).tracker kv.1 + kv.2.length) kv.2.length)

/-- Occurrence counting over all raw triplets in first-occurrence key
order (`app.py`, lines 228-230). -/
def bumpCount : List (String × Nat) → String → List (String × Nat)
  | [], t => [(t, 1)]
  | (k, n) :: rest, t =>
      if k = t then (k, n + 1) :: rest else (k, n) :: bumpCount rest t

/-- Counts of every transition among all raw triplets. -/
def rawCounts (raw : List Triplet) : List (String × Nat) :=
  raw.foldl (fun acc x => bumpCount acc x.transition) []

/-- One line of the raw-duplicate report (`app.py`, line 234). -/
def rawDupLine (T : String) (n : Nat) : String :=
  "Transition: '" ++ T ++ "' used " ++ toString n ++ " times"

/-- The raw-duplicate report (`app.py`, lines 227-234): one line per
transition occurring more than once among all raw triplets. -/
def rawDupReport (raw : List Triplet) : List String :=
  ((rawCounts raw).filter (fun kn => decide (1 < kn.2))).map
    (fun kn => rawDupLine kn.1 kn.2)

/-- Code-point lexicographic comparison, as Python compares strings. -/
def leChars : List Char → List Char → Bool
  | [], _ => true
  | _ :: _, [] => false
  | a :: as, b :: bs => if a = b then leChars as bs else decide (a < b)

/-- Insert into a sorted list of strings. -/
def insertSorted (x : String) : List String → List String
  | [] => [x]
  | y :: ys => if leChars x.data y.data then x :: y :: ys else y :: insertSorted x ys

/-- Sort strings ascending (Python `sorted`). -/
def sortStrings : List String → List String
  | [] => []
  | x :: xs => insertSorted x (sortStrings xs)

/-- The data contracts of the selectable outputs of
`generate_output_files` (file serialisation abstracted away). -/
structure OutputBundle where
  finalTriplets : List Triplet
  transitionsOnly : List String
  capExceeded : List String
  rawDuplicates : List String
deriving DecidableEq

/-- All output representations computed by `generate_output_files`
(`app.py`, lines 157-276) from the raw triplets and the cap. -/
def generate_outputs (raw : List Triplet) (cap : Nat) : OutputBundle :=
  let st := runCap cap raw
  { finalTriplets := st.final
    transitionsOnly := sortStrings ((st.final.map (fun x => x.transition)).dedup)
    capExceeded := rejectedReport cap raw
    rawDuplicates := rawDupReport raw }

/-- Raw triplet accumulation across articles
(`app.py`, lines 300-306). -/
def allRawTriplets (articles : List Article) : List Triplet :=
  articles.flatMap (fun a =>
    extract_all_raw_triplets a.narrative_paragraph a.transitions_list)

/-- The full pipeline of `simulate_streamlit_app_logic`
(`app.py`, lines 283-315) on an ordered paragraph stream. -/
def runPipeline (paras : List String) (cap : Nat) : OutputBundle :=
  generate_outputs (allRawTriplets (extract_articles_from_docx paras)) cap

/-- Drop empty strings from a block. -/
def filterNE (b : List String) : List String := b.filter (fun t => decide (t ≠ ""))

/-- Declarative segmentation spec: split the (already trimmed) line
stream at marker lines, dropping the separators.  Always returns at
least one piece. -/
def splitAtMarkers : List String → List (List String)
  | [] => [[]]
  | t :: ts =>
      if isMarkerLine t then [] :: splitAtMarkers ts
      else
        match splitAtMarkers ts with
        | [] => [[t]]
        | b :: bs => (t :: b) :: bs

/-- Prepend an already-accumulated partial block onto the first piece. -/
def mergeHead (cur : List String) : List (List String) → List (List String)
  | [] => [cur]
  | b :: bs => (cur ++ b) :: bs

/-- Spec-side description of the segmenter, following the specification
text: trim every paragraph, cut the stream at marker lines (the marker
line belongs to no block), drop empty lines inside each piece, and keep
exactly the non-empty pieces. -/
def segmenterSpec (paras : List String) : List (List String) :=
  ((splitAtMarkers (paras.map pyStrip)).map filterNE).filter
    (fun b => decide (b ≠ []))

/-- Narrative used to exercise the placeholder tolerance. -/
def narrC3 : String := "Il a rejoint Lizy-sur-Ourcq, selon la mairie."

/-- Raw-triplet stream with two transitions differing only in case. -/
def rawDemo : List Triplet :=
  List.replicate 5 ⟨"a", "Ainsi", "b"⟩ ++ List.replicate 5 ⟨"a", "ainsi", "b"⟩

theorem dupLookup_dupAdd_self (d : List (String × List Triplet)) (t : String)
    (x : Triplet) : dupLookup (dupAdd d t x) t = dupLookup d t ++ [x] := by
  induction d with
  | nil => simp [dupAdd, dupLookup]
  | cons kv rest ih =>
      obtain ⟨k, v⟩ := kv
      by_cases h : k = t
      · subst h; simp [dupAdd, dupLookup]
      · simp [dupAdd, dupLookup, h, ih]

theorem dupLookup_dupAdd_ne (d : List (String × List Triplet)) (t u : String)
    (x : Triplet) (h : t ≠ u) : dupLookup (dupAdd d t x) u = dupLookup d u := by
  induction d with
  | nil => simp [dupAdd, dupLookup, h]
  | cons kv rest ih =>
      obtain ⟨k, v⟩ := kv
      by_cases hk : k = t
      · subst hk; simp [dupAdd, dupLookup, h]
      · by_cases hu : k = u
        · subst hu; simp [dupAdd, dupLookup, hk]
        · simp [dupAdd, dupLookup, hk, hu, ih]

theorem capFold_spec (cap : Nat) (T : String) :
    ∀ (l : List Triplet) (st : CapState),
      st.tracker T = (withT T st.final).length →
      (withT T ((l.foldl (capStep cap) st).final)
          = withT T st.final ++ (withT T l).take (cap - st.tracker T)) ∧
      (dupLookup (l.foldl (capStep cap) st).dups T
          = dupLookup st.dups T ++ (withT T l).drop (cap - st.tracker T)) ∧
      ((l.foldl (capStep cap) st).tracker T
          = st.tracker T + min (withT T l).length (cap - st.tracker T)) := by
  intro l
  induction l with
  | nil => intro st h; simp [withT]
  | cons x xs ih =>
      intro st h
      rw [List.foldl_cons]
      by_cases hT : x.transition = T
      · subst hT
        by_cases hacc : st.tracker x.transition < cap
        · have e1 : (capStep cap st x).final = st.final ++ [x] := by
            simp [capStep, hacc]
          have e2 : (capStep cap st x).tracker x.transition
              = st.tracker x.transition + 1 := by
            simp [capStep, hacc]
          have e3 : (capStep cap st x).dups = st.dups := by
            simp [capStep, hacc]
          have hw : withT x.transition (capStep cap st x).final
              = withT x.transition st.final ++ [x] := by
            rw [e1]; simp [withT, List.filter_append]
          have h1 : (capStep cap st x).tracker x.transition
              = (withT x.transition (capStep cap st x).final).length := by
            rw [e2, hw]; simp [h]
          obtain ⟨ihA, ihB, ihC⟩ := ih (capStep cap st x) h1
          have hxw : withT x.transition (x :: xs) = x :: withT x.transition xs := by
            simp [withT, List.filter_cons]
          have hcap : cap - st.tracker x.transition
              = (cap - (capStep cap st x).tracker x.transition) + 1 := by
            rw [e2]; omega
          refine ⟨?_, ?_, ?_⟩
          · rw [ihA, hw, hxw, hcap, List.take_succ_cons, List.append_assoc,
              List.singleton_append]
          · rw [ihB, e3, hxw, hcap, List.drop_succ_cons]
          · rw [ihC, e2, hxw]
            simp only [List.length_cons]
            omega
        · have e1 : (capStep cap st x).final = st.final := by
            simp [capStep, hacc]
          have e2 : (capStep cap st x).tracker x.transition
              = st.tracker x.transition := by
            simp [capStep, hacc]
          have e3 : (capStep cap st x).dups = dupAdd st.dups x.transition x := by
            simp [capStep, hacc]
          have h1 : (capStep cap st x).tracker x.transition
              = (withT x.transition (capStep cap st x).final).length := by
            rw [e2, e1, h]
          obtain ⟨ihA, ihB, ihC⟩ := ih (capStep cap st x) h1
          have hxw : withT x.transition (x :: xs) = x :: withT x.transition xs := by
            simp [withT, List.filter_cons]
          have hcap : cap - st.tracker x.transition = 0 := by omega
          refine ⟨?_, ?_, ?_⟩
          · rw [ihA, e1, e2, hcap]; simp
          · rw [ihB, e3, e2, hcap, dupLookup_dupAdd_self, hxw]
            simp
          · rw [ihC, e2, hcap]; simp
      · have hT' : T ≠ x.transition := fun e => hT e.symm
        have e2 : (capStep cap st x).tracker T = st.tracker T := by
          by_cases hacc : st.tracker x.transition < cap <;>
            simp [capStep, hacc, hT']
        have hw : withT T (capStep cap st x).final = withT T st.final := by
          by_cases hacc : st.tracker x.transition < cap <;>
            simp [capStep, hacc, withT, List.filter_append, List.filter_cons, hT]
        have hd : dupLookup (capStep cap st x).dups T = dupLookup st.dups T := by
          by_cases hacc : st.tracker x.transition < cap
          · simp [capStep, hacc]
          · simp [capStep, hacc, dupLookup_dupAdd_ne _ _ _ _ hT]
        have h1 : (capStep cap st x).tracker T
            = (withT T (capStep cap st x).final).length := by rw [e2, hw, h]
        obtain ⟨ihA, ihB, ihC⟩ := ih (capStep cap st x) h1
        have hxw : withT T (x :: xs) = withT T xs := by
          simp [withT, List.filter_cons, hT]
        refine ⟨?_, ?_, ?_⟩
        · rw [ihA, hw, e2, hxw]
        · rw [ihB, hd, e2, hxw]
        · rw [ihC, e2, hxw]

theorem runCap_final_withT (cap : Nat) (raw : List Triplet) (T : String) :
    withT T (runCap cap raw).final = (withT T raw).take cap := by
  have h := (capFold_spec cap T raw initState (by simp [initState, withT])).1
  simpa [runCap, initState, withT] using h

theorem runCap_dups_withT (cap : Nat) (raw : List Triplet) (T : String) :
    dupLookup (runCap cap raw).dups T = (withT T raw).drop cap := by
  have h := (capFold_spec cap T raw initState (by simp [initState, withT])).2.1
  simpa [runCap, initState, withT, dupLookup] using h

theorem runCap_tracker_min (cap : Nat) (raw : List Triplet) (T : String) :
    (runCap cap raw).tracker T = min (countT raw T) cap := by
  have h := (capFold_spec cap T raw initState (by simp [initState, withT])).2.2
  simpa [runCap, initState, withT, countT] using h

theorem runCap_countT (cap : Nat) (raw : List Triplet) (T : String) :
    countT (runCap cap raw).final T = min (countT raw T) cap := by
  unfold countT
  rw [runCap_final_withT]
  simp [List.length_take, Nat.min_comm, countT, withT]

/-- C1: for every transition T and any cap, after UsageCapper processes the
full ordered raw-triplet sequence, the accepted triplets with transition T
are exactly the first `cap` occurrences of T in raw order and the rejected
ones stored under T are exactly the remaining occurrences, both preserving
relative order; hence the accepted count is `min(totalOccurrences, cap)` and
the rejected count is `totalOccurrences - cap` (truncated at zero). -/
theorem cap_invariant_split (cap : Nat) (raw : List Triplet) (T : String) :
    withT T (runCap cap raw).final = (withT T raw).take cap ∧
    dupLookup (runCap cap raw).dups T = (withT T raw).drop cap ∧
    countT (runCap cap raw).final T = min (countT raw T) cap ∧
    (dupLookup (runCap cap raw).dups T).length = countT raw T - cap := by
  refine ⟨runCap_final_withT cap raw T, runCap_dups_withT cap raw T,
    runCap_countT cap raw T, ?_⟩
  rw [runCap_dups_withT]
  simp [countT, List.length_drop]

theorem tripletsFor_transition {narrative t : String} {x : Triplet}
    (hx : x ∈ tripletsFor narrative t) : x.transition = t := by
  simp only [tripletsFor, List.mem_map] at hx
  obtain ⟨se, _, he⟩ := hx
  rw [← he]

/-- C2: every triplet emitted by the extractor carries, in its
`transition` field, the canonical phrase from the transitions list that
produced the match (character-for-character one of the list's entries),
and never the substring of the narrative that the tolerant pattern
actually matched. -/
theorem canonical_transition_field :
    (∀ (narrative t : String) (x : Triplet),
        x ∈ tripletsFor narrative t → x.transition = t) ∧
    (∀ (narrative : String) (ts : List String) (x : Triplet),
        x ∈ extract_all_raw_triplets narrative ts → x.transition ∈ ts) := by
  refine ⟨fun _ _ _ hx => tripletsFor_transition hx, ?_⟩
  intro narrative ts x hx
  rw [extract_all_raw_triplets, List.mem_flatMap] at hx
  obtain ⟨t, ht, hx⟩ := hx
  by_cases hte : t = ""
  · rw [if_pos hte] at hx
    simp at hx
  · rw [if_neg hte] at hx
    rw [tripletsFor_transition hx]
    exact ht

theorem canonical_transition_field_witness :
    (Triplet.mk "" "a" "b").transition = "a" ∧
    (Triplet.mk "" "a" "b").transition ∈ ["a"] :=
  ⟨canonical_transition_field.1 "a b" "a" (Triplet.mk "" "a" "b") (by decide),
   canonical_transition_field.2 "a b" ["a"] (Triplet.mk "" "a" "b") (by decide)⟩

/-- C3: in the matcher, the literal substring `[XXX]` matches a greedy run
of non-comma characters instead of the literal text: the phrase
"a rejoint [XXX], selon" does not occur literally in the narrative, yet it
matches the span covering "a rejoint Lizy-sur-Ourcq, selon", and the
emitted triplet's `transition` field is "a rejoint [XXX], selon" verbatim. -/
theorem placeholder_tolerant_match :
    listHasSub ("a rejoint [XXX], selon").data narrC3.data = false ∧
    findMatches (buildToks ("a rejoint [XXX], selon")) narrC3.data = [(3, 34)] ∧
    String.mk ((narrC3.data.take 34).drop 3) = "a rejoint Lizy-sur-Ourcq, selon" ∧
    extract_all_raw_triplets narrC3 ["a rejoint [XXX], selon"] =
      [⟨"Il", "a rejoint [XXX], selon", "la mairie."⟩] := by
  refine ⟨by decide, by decide, by decide, by decide⟩

theorem wordRun_eq_length {w : List Char} (hw : ∀ c ∈ w, isWordChar c = true) :
    wordRun w = w.length := by
  induction w with
  | nil => rfl
  | cons c cs ih =>
      rw [wordRun, hw c (List.mem_cons_self c cs)]
      simp [ih (fun d hd => hw d (List.mem_cons_of_mem c hd))]

theorem matchFuel_lit_step (fuel : Nat) (p c : Char) (ts : List Tok)
    (s : List Char) (h : charMatches p c = true) :
    matchFuel (fuel + 1) (Tok.lit p :: ts) (c :: s) = matchFuel fuel ts s := by
  simp [matchFuel, h]

theorem matchFuel_queAlt_apos (fuel : Nat) (w : List Char)
    (hw : ∀ c ∈ w, isWordChar c = true) :
    matchFuel (fuel + 2) [Tok.queAlt] (' ' :: 'q' :: 'u' :: apos :: w) = some [] := by
  have h1 : (isSpaceChar ' ' && charMatches 'q' 'q' && charMatches 'u' 'u'
      && charMatches 'e' apos) = false := by decide
  have h2 : (isSpaceChar ' ' && charMatches 'q' 'q' && charMatches 'u' 'u'
      && decide (apos = apos)) = true := by decide
  rw [show fuel + 2 = (fuel + 1) + 1 from rfl]
  simp only [matchFuel, h1, h2, Bool.false_eq_true, if_false, if_true]
  rw [wordRun_eq_length hw, List.range_succ, List.reverse_append]
  simp [matchFuel, List.drop_length]
  decide

theorem matchSuffix_parceQue (w : List Char)
    (hw : ∀ c ∈ w, isWordChar c = true) :
    matchSuffix (buildToks ("parce que"))
      ('p' :: 'a' :: 'r' :: 'c' :: 'e' :: ' ' :: 'q' :: 'u' :: apos :: w)
      = some [] := by
  have hb : buildToks ("parce que")
      = [Tok.lit 'p', Tok.lit 'a', Tok.lit 'r', Tok.lit 'c', Tok.lit 'e',
         Tok.queAlt] := by decide
  rw [matchSuffix, hb]
  show matchFuel 7 [Tok.lit 'p', Tok.lit 'a', Tok.lit 'r', Tok.lit 'c',
    Tok.lit 'e', Tok.queAlt]
    ('p' :: 'a' :: 'r' :: 'c' :: 'e' :: ' ' :: 'q' :: 'u' :: apos :: w) = some []
  calc matchFuel 7 [Tok.lit 'p', Tok.lit 'a', Tok.lit 'r', Tok.lit 'c',
        Tok.lit 'e', Tok.queAlt]
        ('p' :: 'a' :: 'r' :: 'c' :: 'e' :: ' ' :: 'q' :: 'u' :: apos :: w)
      = matchFuel 6 [Tok.lit 'a', Tok.lit 'r', Tok.lit 'c', Tok.lit 'e',
        Tok.queAlt] ('a' :: 'r' :: 'c' :: 'e' :: ' ' :: 'q' :: 'u' :: apos :: w) :=
        matchFuel_lit_step 6 'p' 'p' _ _ (by decide)
    _ = matchFuel 5 [Tok.lit 'r', Tok.lit 'c', Tok.lit 'e', Tok.queAlt]
        ('r' :: 'c' :: 'e' :: ' ' :: 'q' :: 'u' :: apos :: w) :=
        matchFuel_lit_step 5 'a' 'a' _ _ (by decide)
    _ = matchFuel 4 [Tok.lit 'c', Tok.lit 'e', Tok.queAlt]
        ('c' :: 'e' :: ' ' :: 'q' :: 'u' :: apos :: w) :=
        matchFuel_lit_step 4 'r' 'r' _ _ (by decide)
    _ = matchFuel 3 [Tok.lit 'e', Tok.queAlt]
        ('e' :: ' ' :: 'q' :: 'u' :: apos :: w) :=
        matchFuel_lit_step 3 'c' 'c' _ _ (by decide)
    _ = matchFuel 2 [Tok.queAlt] (' ' :: 'q' :: 'u' :: apos :: w) :=
        matchFuel_lit_step 2 'e' 'e' _ _ (by decide)
    _ = some [] := matchFuel_queAlt_apos 0 w hw

/-- C4: a transition phrase ending in " que" also accepts the elision
variant: a space, then "qu", then an apostrophe, then any run of word
characters; in particular "parce que" matches the whole of
"parce qu'" followed by any word-character continuation, and matches the
narrative occurrences "parce qu'on" and "parce qu'il", while still
accepting the literal " que" suffix. -/
theorem elision_tolerant_match :
    (∀ w : List Char, (∀ c ∈ w, isWordChar c = true) →
        matchAt (buildToks ("parce que")) (("parce qu").data ++ apos :: w) 0
          = some (9 + w.length)) ∧
    findMatches (buildToks ("parce que")) ("parce qu'on").data = [(0, 11)] ∧
    findMatches (buildToks ("parce que")) ("parce qu'il").data = [(0, 11)] ∧
    findMatches (buildToks ("parce que")) ("parce que donc").data = [(0, 9)] := by
  refine ⟨?_, by decide, by decide, by decide⟩
  intro w hw
  have hs0 : ("parce qu").data ++ apos :: w
      = 'p' :: 'a' :: 'r' :: 'c' :: 'e' :: ' ' :: 'q' :: 'u' :: apos :: w := rfl
  unfold matchAt
  rw [hs0, List.drop_zero, matchSuffix_parceQue w hw]
  simp [List.length_cons]
  omega

theorem elision_tolerant_match_witness :
    matchAt (buildToks ("parce que")) (("parce qu").data ++ apos :: ['o', 'n']) 0
      = some 11 := by
  have h := elision_tolerant_match.1 ['o', 'n'] (by decide)
  simpa using h

theorem splitAtMarkers_ne_nil (l : List String) : splitAtMarkers l ≠ [] := by
  cases l with
  | nil => simp [splitAtMarkers]
  | cons t ts =>
      simp only [splitAtMarkers]
      split
      · simp
      · split <;> simp

theorem segmentAux_spec (ps : List String) : ∀ cur : List String,
    segmentAux ps cur =
      (mergeHead cur ((splitAtMarkers (ps.map pyStrip)).map filterNE)).filter
        (fun b => decide (b ≠ [])) := by
  induction ps with
  | nil =>
      intro cur
      by_cases h : cur = [] <;>
        simp [segmentAux, splitAtMarkers, mergeHead, filterNE, h]
  | cons p ps ih =>
      intro cur
      obtain ⟨b, bs, hS⟩ :=
        List.exists_cons_of_ne_nil (splitAtMarkers_ne_nil (ps.map pyStrip))
      simp only [segmentAux, List.map_cons]
      by_cases hm : isMarkerLine (pyStrip p)
      · rw [if_pos hm]
        have hsp : splitAtMarkers (pyStrip p :: ps.map pyStrip)
            = [] :: splitAtMarkers (ps.map pyStrip) := by
          simp [splitAtMarkers, hm]
        rw [hsp, ih [], hS]
        by_cases hc : cur = [] <;> simp [mergeHead, filterNE, hc]
      · rw [if_neg hm]
        have hsp : splitAtMarkers (pyStrip p :: ps.map pyStrip)
            = (pyStrip p :: b) :: bs := by
          simp [splitAtMarkers, hm, hS]
        rw [hsp]
        by_cases he : pyStrip p = ""
        · rw [if_pos he, ih cur, hS]
          simp [mergeHead, filterNE, he, List.filter_cons]
        · rw [if_neg he, ih (cur ++ [pyStrip p]), hS]
          simp [mergeHead, filterNE, he, List.filter_cons, List.append_assoc]

/-- C5: the segmenter, scanning the paragraph sequence in order, pushes
the accumulated block exactly at marker lines (case-sensitive substring
test) and at end of stream, pushes it only when non-empty, adds the
marker line itself to no block, and adds empty lines to no block: its
result equals the declarative description "split the trimmed stream at
marker lines, drop empty lines inside the pieces, keep the non-empty
pieces". -/
theorem segmenter_behavior (paras : List String) :
    extract_blocks paras = segmenterSpec paras := by
  rw [extract_blocks, segmenterSpec, segmentAux_spec paras []]
  obtain ⟨b, bs, hS⟩ :=
    List.exists_cons_of_ne_nil (splitAtMarkers_ne_nil (paras.map pyStrip))
  rw [hS]
  simp [mergeHead]

/-- C6: no input's first raw block is ever converted into an Article: the
parse result is independent of the content of the block at index 0, it is
empty whenever fewer than two blocks exist, and every parsed Article
originates from some block at index one or later. -/
theorem first_block_never_article :
    (∀ (b0 b0' : List String) (rest : List (List String)),
        parseArticles (b0 :: rest) = parseArticles (b0' :: rest)) ∧
    (∀ blocks : List (List String), blocks.length < 2 → parseArticles blocks = []) ∧
    (∀ (blocks : List (List String)) (a : Article),
        a ∈ parseArticles blocks → ∃ b ∈ blocks.drop 1, articleOfBlock b = some a) := by
  refine ⟨?_, ?_, ?_⟩
  · intro b0 b0' rest
    simp [parseArticles]
  · intro blocks h
    simp [parseArticles, h]
  · intro blocks a ha
    by_cases h : blocks.length < 2
    · simp [parseArticles, h] at ha
    · rw [parseArticles, if_neg h] at ha
      rw [List.mem_filterMap] at ha
      exact ha

theorem first_block_never_article_witness :
    parseArticles [["preamble line", "x", "y"]] = [] ∧
    parseArticles (["a"] :: [["n", "t"]]) = parseArticles (["b", "c"] :: [["n", "t"]]) ∧
    ∃ b ∈ ([["n", "t"]] : List (List String)),
      articleOfBlock b = some (Article.mk "n" ["t"]) := by
  refine ⟨first_block_never_article.2.1 [["preamble line", "x", "y"]] (by decide),
    first_block_never_article.1 ["a"] ["b", "c"] [["n", "t"]],
    first_block_never_article.2.2 [["x"], ["n", "t"]] (Article.mk "n" ["t"]) ?_⟩
  decide

/-- C7: a raw block at index one or later with fewer than two lines is
silently skipped: it contributes no Article, and the remaining blocks are
processed in order, so parsing with and without that block agree. -/
theorem short_block_skipped (first b : List String) (pre post : List (List String))
    (h : b.length < 2) :
    parseArticles (first :: (pre ++ b :: post))
      = parseArticles (first :: (pre ++ post)) := by
  have hb : articleOfBlock b = none := by
    rcases b with _ | ⟨x, _ | ⟨y, r⟩⟩
    · rfl
    · rfl
    · simp only [List.length_cons] at h
      omega
  have h1 : ¬ ((first :: (pre ++ b :: post)).length < 2) := by
    simp only [List.length_cons, List.length_append]
    omega
  rw [parseArticles, parseArticles, if_neg h1]
  by_cases h2 : (first :: (pre ++ post)).length < 2
  · rw [if_pos h2]
    have hp : pre = [] ∧ post = [] := by
      rcases pre with _ | ⟨q, qs⟩ <;> rcases post with _ | ⟨r, rs⟩ <;>
        simp_all [List.length_append, List.length_cons] <;> omega
    obtain ⟨hpre, hpost⟩ := hp
    subst hpre; subst hpost
    simp [hb]
  · rw [if_neg h2]
    simp [List.filterMap_append, List.filterMap_cons, hb]

theorem short_block_skipped_witness :
    parseArticles [["h"], ["n", "t"], ["solo"], ["m", "u"]]
      = parseArticles [["h"], ["n", "t"], ["m", "u"]] :=
  short_block_skipped ["h"] ["solo"] [["n", "t"]] [["m", "u"]] (by decide)

theorem dupAdd_keys (d : List (String × List Triplet)) (t : String) (x : Triplet) :
    (dupAdd d t x).map Prod.fst =
      if t ∈ d.map Prod.fst then d.map Prod.fst else d.map Prod.fst ++ [t] := by
  induction d with
  | nil => simp [dupAdd]
  | cons kv rest ih =>
      obtain ⟨k, v⟩ := kv
      by_cases h : k = t
      · subst h; simp [dupAdd]
      · have h' : ¬ t = k := fun e => h e.symm
        by_cases hm : t ∈ rest.map Prod.fst <;>
          simp [dupAdd, h, h', hm, ih]

theorem dupAdd_vals (t : String) (x : Triplet) :
    ∀ d : List (String × List Triplet), (∀ kv ∈ d, kv.2 ≠ []) →
      ∀ kv ∈ dupAdd d t x, kv.2 ≠ [] := by
  intro d
  induction d with
  | nil =>
      intro _ kv hkv
      simp only [dupAdd, List.mem_singleton] at hkv
      subst hkv
      simp
  | cons hd rest ih =>
      obtain ⟨k, v⟩ := hd
      intro h kv hkv
      by_cases hk : k = t
      · subst hk
        have e : dupAdd ((k, v) :: rest) k x = (k, v ++ [x]) :: rest := by
          simp [dupAdd]
        rw [e, List.mem_cons] at hkv
        cases hkv with
        | inl he => rw [he]; simp
        | inr hkv => exact h kv (List.mem_cons_of_mem _ hkv)
      · have e : dupAdd ((k, v) :: rest) t x = (k, v) :: dupAdd rest t x := by
          simp [dupAdd, hk]
        rw [e, List.mem_cons] at hkv
        cases hkv with
        | inl he => rw [he]; exact h (k, v) (List.mem_cons_self _ _)
        | inr hkv => exact ih (fun kv2 h2 => h kv2 (List.mem_cons_of_mem _ h2)) kv hkv

theorem dupAdd_nodup (t : String) (x : Triplet) (d : List (String × List Triplet))
    (h : (d.map Prod.fst).Nodup) : ((dupAdd d t x).map Prod.fst).Nodup := by
  rw [dupAdd_keys]
  by_cases hm : t ∈ d.map Prod.fst
  · rw [if_pos hm]; exact h
  · rw [if_neg hm]
    simp [List.nodup_append, h, hm]

theorem capFold_dups_wf (cap : Nat) :
    ∀ (l : List Triplet) (st : CapState),
      (∀ kv ∈ st.dups, kv.2 ≠ []) → (st.dups.map Prod.fst).Nodup →
      (∀ kv ∈ (l.foldl (capStep cap) st).dups, kv.2 ≠ []) ∧
        ((l.foldl (capStep cap) st).dups.map Prod.fst).Nodup := by
  intro l
  induction l with
  | nil => intro st h1 h2; exact ⟨h1, h2⟩
  | cons x xs ih =>
      intro st h1 h2
      rw [List.foldl_cons]
      by_cases hacc : st.tracker x.transition < cap
      · have e : (capStep cap st x).dups = st.dups := by simp [capStep, hacc]
        exact ih (capStep cap st x) (by rw [e]; exact h1) (by rw [e]; exact h2)
      · have e : (capStep cap st x).dups = dupAdd st.dups x.transition x := by
          simp [capStep, hacc]
        refine ih (capStep cap st x) ?_ ?_
        · rw [e]; exact dupAdd_vals _ _ _ h1
        · rw [e]; exact dupAdd_nodup _ _ _ h2

theorem runCap_dups_wf (cap : Nat) (raw : List Triplet) :
    (∀ kv ∈ (runCap cap raw).dups, kv.2 ≠ []) ∧
      ((runCap cap raw).dups.map Prod.fst).Nodup :=
  capFold_dups_wf cap raw initState (by simp [initState]) (by simp [initState])

theorem mem_keys_iff_dupLookup (k : String) :
    ∀ d : List (String × List Triplet), (∀ kv ∈ d, kv.2 ≠ []) →
      (k ∈ d.map Prod.fst ↔ dupLookup d k ≠ []) := by
  intro d
  induction d with
  | nil => intro _; simp [dupLookup]
  | cons hd rest ih =>
      obtain ⟨k', v⟩ := hd
      intro h
      by_cases hk : k' = k
      · subst hk
        simp [dupLookup, h (k', v) (List.mem_cons_self _ _)]
      · have hk2 : ¬ k = k' := fun e => hk e.symm
        simp only [List.map_cons, List.mem_cons, dupLookup, if_neg hk]
        rw [← ih (fun kv2 h2 => h kv2 (List.mem_cons_of_mem _ h2))]
        simp [hk2]

theorem dupLookup_of_mem :
    ∀ d : List (String × List Triplet), (d.map Prod.fst).Nodup →
      ∀ kv ∈ d, dupLookup d kv.1 = kv.2 := by
  intro d
  induction d with
  | nil => intro _ kv hkv; simp at hkv
  | cons hd rest ih =>
      intro hnd kv hkv
      obtain ⟨k', v'⟩ := hd
      simp only [List.map_cons, List.nodup_cons] at hnd
      rcases List.mem_cons.mp hkv with rfl | hkv2
      · simp [dupLookup]
      · have hk : ¬ k' = kv.1 := by
          intro e
          exact hnd.1 (by rw [e]; exact List.mem_map_of_mem Prod.fst hkv2)
        simp only [dupLookup, if_neg hk]
        exact ih hnd.2 kv hkv2

/-- C8: the cap-exceeded report has exactly one line per transition whose
total occurrence count among the raw triplets exceeds the cap, and no
line for any other transition; the line for `T` reads
`Transition: '<T>' used <total> times (exceeded by <excess>)` where
`<total>` is the accepted count plus the duplicate count (equal to the
raw occurrence count) and `<excess>` is the duplicate count. -/
theorem cap_exceeded_report_spec (cap : Nat) (raw : List Triplet) :
    ∃ keys : List String, keys.Nodup ∧
      (∀ T : String, T ∈ keys ↔ cap < countT raw T) ∧
      rejectedReport cap raw =
        keys.map (fun T => reportLine T (countT raw T) (countT raw T - cap)) := by
  obtain ⟨hvals, hnd⟩ := runCap_dups_wf cap raw
  refine ⟨(runCap cap raw).dups.map Prod.fst, hnd, ?_, ?_⟩
  · intro T
    rw [mem_keys_iff_dupLookup T _ hvals, runCap_dups_withT]
    constructor
    · intro hne
      by_contra hcnt
      apply hne
      apply List.drop_eq_nil_of_le
      unfold countT at hcnt
      omega
    · intro hcnt hnil
      have hlen := congrArg List.length hnil
      simp only [List.length_drop, List.length_nil] at hlen
      unfold countT at hcnt
      omega
  · have hfil : (runCap cap raw).dups.filter (fun kv => decide (kv.2 ≠ []))
        = (runCap cap raw).dups := by
      apply List.filter_eq_self.mpr
      intro kv hkv
      simp [hvals kv hkv]
    simp only [rejectedReport]
    rw [hfil, List.map_map]
    apply List.map_congr_left
    intro kv hkv
    have hv : kv.2 = (withT kv.1 raw).drop cap := by
      rw [← runCap_dups_withT cap raw kv.1, dupLookup_of_mem _ hnd kv hkv]
    have hlen : kv.2.length = countT raw kv.1 - cap := by
      rw [hv]; simp [countT, List.length_drop]
    have hgt : cap < countT raw kv.1 := by
      have hne := hvals kv hkv
      rw [hv] at hne
      by_contra hle
      apply hne
      apply List.drop_eq_nil_of_le
      unfold countT at hle
      omega
    have htr : (runCap cap raw).tracker kv.1 = cap := by
      rw [runCap_tracker_min]
      omega
    simp only [Function.comp]
    rw [htr, hlen]
    congr 1
    omega

/-- C9: the pipeline is deterministic: two runs on equal paragraph
streams with equal caps produce equal accepted-triplet sequences, equal
sorted transitions-only lists, and cap-exceeded and raw-duplicate
reports of equal content. -/
theorem pipeline_deterministic (paras1 paras2 : List String) (cap1 cap2 : Nat)
    (hp : paras1 = paras2) (hc : cap1 = cap2) :
    runPipeline paras1 cap1 = runPipeline paras2 cap2 ∧
    (runPipeline paras1 cap1).finalTriplets = (runPipeline paras2 cap2).finalTriplets ∧
    (runPipeline paras1 cap1).transitionsOnly = (runPipeline paras2 cap2).transitionsOnly ∧
    (runPipeline paras1 cap1).capExceeded = (runPipeline paras2 cap2).capExceeded ∧
    (runPipeline paras1 cap1).rawDuplicates = (runPipeline paras2 cap2).rawDuplicates := by
  subst hp; subst hc
  exact ⟨rfl, rfl, rfl, rfl, rfl⟩

theorem pipeline_deterministic_witness :
    runPipeline ["x"] 3 = runPipeline ["x"] 3 :=
  (pipeline_deterministic ["x"] ["x"] 3 3 rfl rfl).1

/-- C10: pattern matching is case-insensitive but usage capping is
case-sensitive: two canonical phrases that differ only in letter case are
tracked as distinct keys, each independently allowed up to cap accepted
triplets, even though their matchers (here "Ainsi" and "ainsi") match the
very same narrative substrings. -/
theorem case_sensitive_capping (cap : Nat) (raw : List Triplet) (t1 t2 : String)
    (hcase : t1.data.map Char.toLower = t2.data.map Char.toLower)
    (hne : t1 ≠ t2) :
    countT (runCap cap raw).final t1 = min (countT raw t1) cap ∧
    countT (runCap cap raw).final t2 = min (countT raw t2) cap ∧
    (findMatches (buildToks ("Ainsi")) ("ainsi soit-il").data = [(0, 5)] ∧
      findMatches (buildToks ("ainsi")) ("ainsi soit-il").data = [(0, 5)]) :=
  ⟨runCap_countT cap raw t1, runCap_countT cap raw t2, by decide, by decide⟩

theorem case_sensitive_capping_witness :
    ("Ainsi" : String).data.map Char.toLower
      = ("ainsi" : String).data.map Char.toLower ∧
    countT (runCap 3 rawDemo).final "Ainsi" = min (countT rawDemo "Ainsi") 3 ∧
    countT (runCap 3 rawDemo).final "ainsi" = min (countT rawDemo "ainsi") 3 :=
  ⟨by decide,
   (case_sensitive_capping 3 rawDemo "Ainsi" "ainsi" (by decide) (by decide)).1,
   (case_sensitive_capping 3 rawDemo "Ainsi" "ainsi" (by decide) (by decide)).2.1⟩
